import Mathlib

/-!
Shallow embedding of `src/main.rs` (a CodinGame Fall Challenge 2020 bot):
a 4-component resource vector, the game entities (spells, tome entries,
orders), the transition model (`get_possible_actions` / `apply`), and the
time-bounded BFS planner (`Bot.bfs` / `Bot.think`).

Conventions of the embedding:
* Rust `i32` is modelled as `Int` (no claim here depends on wrap-around).
* Rust `usize` ids and indices are modelled as `Nat`.
* Code paths that panic (`unwrap`, `panic!`, `unreachable!`, `expect`) are
  modelled by returning `none`; a returned value is `some`.
* `Vec::remove(position(p))` on the first element satisfying `p` is
  `List.eraseP p`; removing the first occurrence of a value is `List.erase`.
* The wall-clock deadline of the BFS (checked once per dequeued node) is
  modelled by a fuel counter decremented once per dequeued node; fuel
  exhaustion corresponds to `elapsed > MAX_DURATION` becoming true.
* `f64` scores in the BFS are exact images of `i32` sums, so they are
  modelled as `Int`; the initial `f64::MIN` is modelled as `none`.
-/

namespace Potion

/-- Rust struct `Vec4` from mod `vec4`: 4 signed components. -/
structure Vec4 where
  x : Int
  y : Int
  z : Int
  w : Int
deriving DecidableEq, Repr

namespace Vec4

/-- Rust `Vec4::new`. -/
def new (x y z w : Int) : Vec4 := ⟨x, y, z, w⟩

/-- Rust `Vec4::zero`. -/
def zero : Vec4 := ⟨0, 0, 0, 0⟩

/-- Rust `Vec4::is_non_neg`: every component is `>= 0`. -/
def is_non_neg (v : Vec4) : Bool :=
  decide (0 ≤ v.x) && decide (0 ≤ v.y) && decide (0 ≤ v.z) && decide (0 ≤ v.w)

instance : Add Vec4 := ⟨fun a b => ⟨a.x + b.x, a.y + b.y, a.z + b.z, a.w + b.w⟩⟩

instance : Sub Vec4 := ⟨fun a b => ⟨a.x - b.x, a.y - b.y, a.z - b.z, a.w - b.w⟩⟩

theorem add_def (a b : Vec4) : a + b = ⟨a.x + b.x, a.y + b.y, a.z + b.z, a.w + b.w⟩ := rfl

theorem add_comm (a b : Vec4) : a + b = b + a := by
  cases a; cases b; simp [add_def]; omega

end Vec4

/-- Rust enum `Action`: the tagged action type (ids are `usize`, modelled as `Nat`). -/
inductive Action where
  | Learn : Nat → Action
  | Brew : Nat → Action
  | Cast : Nat → Action
  | Rest : Action
  | Wait : Action
deriving DecidableEq, Repr

/-- Rust struct `Spell`: id, delta, and the derived `is_repeatable` flag. -/
structure Spell where
  id : Nat
  delta : Vec4
  is_repeatable : Bool
deriving DecidableEq, Repr

/-- Rust `Spell::new`: computes `is_repeatable = !delta.is_non_neg()`. -/
def Spell.new (id : Nat) (delta : Vec4) : Spell :=
  ⟨id, delta, !delta.is_non_neg⟩

/-- Rust struct `TomeSpell`: id, delta, and the tome position index. -/
structure TomeSpell where
  id : Nat
  delta : Vec4
  tome_index : Nat
deriving DecidableEq, Repr

/-- Rust struct `Order`: id, price, delta. -/
structure Order where
  id : Nat
  price : Int
  delta : Vec4
deriving DecidableEq, Repr

/-- Rust `Order::can_be_fulfilled_by`. -/
def Order.can_be_fulfilled_by (o : Order) (inventory : Vec4) : Bool :=
  (inventory + o.delta).is_non_neg

/-- Rust struct `MagicTome`: ordered collection of tome spells. -/
structure MagicTome where
  spells : List TomeSpell
deriving DecidableEq, Repr

/-- Rust `MagicTome::remove_spell`: remove the first entry whose id matches,
no-op when none matches (`if let Some(index) = position(..) { remove }`). -/
def MagicTome.remove_spell (t : MagicTome) (spell : TomeSpell) : MagicTome :=
  ⟨t.spells.eraseP (fun u => u.id == spell.id)⟩

/-- Rust struct `PlayerState`: the planner's search node. -/
structure PlayerState where
  score : Int
  inventory : Vec4
  brew_count : Int
  available_spells : List Nat
deriving DecidableEq, Repr

/-- Rust struct `GameState`: player states plus the shared, mutable game-wide data. -/
structure GameState where
  me : PlayerState
  my_spells : List Spell
  enemy : PlayerState
  enemy_spells : List Spell
  orders : List Order
  tome : MagicTome
deriving DecidableEq, Repr

namespace PlayerState

/-- Rust `PlayerState::evaluate`: `score + x + 2y + 3z + 4w` (the `f64` cast is
exact on these integer values, so the result is kept as `Int`). -/
def evaluate (s : PlayerState) : Int :=
  s.score + (s.inventory.x + s.inventory.y * 2 + s.inventory.z * 3 + s.inventory.w * 4)

/-- Rust `PlayerState::can_afford_spell`. -/
def can_afford_spell (s : PlayerState) (ingredients : Vec4) : Bool :=
  (ingredients + s.inventory).is_non_neg

end PlayerState

/-- The `for (idx, spell) in tome.spells.iter().enumerate()` loop of
`get_possible_actions`: push `Learn(spell.id)` when `inventory.x >= idx`.
`k` is the index of the first element of the remaining list. -/
def learn_actions (invx : Int) : Nat → List TomeSpell → List Action
  | _, [] => []
  | k, t :: ts =>
    (if (k : Int) ≤ invx then [Action.Learn t.id] else []) ++ learn_actions invx (k + 1) ts

/-- The `for &id in available_spells` loop of `get_possible_actions`:
push `Cast(id)` when the spell is found in the roster and affordable;
`none` models the `unreachable!()` panic when an available id is not in
the roster. -/
def cast_actions (s : PlayerState) (spells : List Spell) : List Nat → Option (List Action)
  | [] => some []
  | id :: rest =>
    match spells.find? (fun sp => sp.id == id) with
    | none => none
    | some spell =>
      match cast_actions s spells rest with
      | none => none
      | some acts =>
        some ((if s.can_afford_spell spell.delta then [Action.Cast id] else []) ++ acts)

/-- Rust `PlayerState::get_possible_actions`: brews, then (turn-gated) learns,
then casts, then `Rest` when the available-spell list and the roster have
different lengths. `none` models the `unreachable!()` panic. -/
def PlayerState.get_possible_actions (s : PlayerState) (gs : GameState) (turn : Nat) :
    Option (List Action) :=
  match cast_actions s gs.my_spells s.available_spells with
  | none => none
  | some casts =>
    some ((gs.orders.filterMap fun o =>
            if o.can_be_fulfilled_by s.inventory then some (Action.Brew o.id) else none) ++
          (if turn < 5 then learn_actions s.inventory.x 0 gs.tome.spells else []) ++
          casts ++
          (if s.available_spells.length ≠ gs.my_spells.length then [Action.Rest] else []))

/-- Rust `PlayerState::apply`: applies one action to the search node and the
shared game state. `none` models the panics (`unwrap` on a missing
fulfillable order, `panic!` on casting an unavailable roster spell). -/
def PlayerState.apply (s : PlayerState) (gs : GameState) : Action → Option (PlayerState × GameState)
  | Action.Brew id =>
    match gs.orders.find? (fun o => o.id == id && o.can_be_fulfilled_by s.inventory) with
    | none => none
    | some order =>
      some ({ s with inventory := s.inventory + order.delta,
                     score := s.score + order.price,
                     brew_count := s.brew_count + 1 },
            { gs with orders :=
                gs.orders.eraseP (fun o => o.id == id && o.can_be_fulfilled_by s.inventory) })
  | Action.Cast id =>
    match gs.my_spells.find? (fun sp => sp.id == id) with
    | none => some (s, gs)
    | some spell =>
      if id ∈ s.available_spells then
        some ({ s with inventory := s.inventory + spell.delta,
                       available_spells := s.available_spells.erase id }, gs)
      else none
  | Action.Learn id =>
    match gs.tome.spells.find? (fun t => t.id == id) with
    | none => some (s, gs)
    | some spell =>
      if (s.inventory - Vec4.new (spell.tome_index : Int) 0 0 0).is_non_neg then
        some (s, { gs with
          my_spells := gs.my_spells ++ [Spell.new (spell.id + 1000) spell.delta],
          tome := gs.tome.remove_spell spell })
      else some (s, gs)
  | Action.Rest => some ({ s with available_spells := gs.my_spells.map Spell.id }, gs)
  | Action.Wait => some (s, gs)

/-- Rust `GameState::find_brewable_order`: first order fulfillable by `me`'s
inventory. -/
def GameState.find_brewable_order (gs : GameState) : Option Order :=
  gs.orders.find? (fun o => o.can_be_fulfilled_by gs.me.inventory)

/-- Lookup (Rust `HashMap::get`) on the predecessor / action maps, modelled as
association lists. -/
def alist_get {β : Type} (m : List (PlayerState × β)) (key : PlayerState) : Option β :=
  (m.find? (fun e => decide (e.1 = key))).map Prod.snd

/-- Rust `HashMap::entry(..).or_insert(..)`: insert only when the key is absent. -/
def or_insert {β : Type} (m : List (PlayerState × β)) (key : PlayerState) (val : β) :
    List (PlayerState × β) :=
  match alist_get m key with
  | some _ => m
  | none => (key, val) :: m

/-- The inner `for action in current.get_possible_actions(..)` loop of
`Bot::bfs`: clone the node, apply the action (threading the shared,
mutated `GameState`), and on first discovery enqueue and record
predecessor and action. Returns the updated
`(queue, visited, predecessor, pred_action, game_state)`;
`none` models a panic inside `apply`. -/
def expand (current : PlayerState) :
    List Action → List PlayerState → List PlayerState →
    List (PlayerState × PlayerState) → List (PlayerState × Action) → GameState →
    Option (List PlayerState × List PlayerState ×
      List (PlayerState × PlayerState) × List (PlayerState × Action) × GameState)
  | [], queue, visited, predecessor, pred_action, gs =>
    some (queue, visited, predecessor, pred_action, gs)
  | action :: rest, queue, visited, predecessor, pred_action, gs =>
    match current.apply gs action with
    | none => none
    | some (next, gs') =>
      if next ∈ visited then
        expand current rest queue visited predecessor pred_action gs'
      else
        expand current rest (queue ++ [next]) (next :: visited)
          (or_insert predecessor next current) (or_insert pred_action next action) gs'

/-- The path-reconstruction loop of `Bot::bfs`: walk predecessor links
from the best node back to the seed, pushing each action. `none` models
the `expect` panics on a missing map entry. The source loop runs
unboundedly; the fuel argument bounds the walk and is chosen at the call
site to exceed the length of any chain the loop actually builds. -/
def reconstruct (pred_action : List (PlayerState × Action))
    (predecessor : List (PlayerState × PlayerState)) (initial : PlayerState) :
    Nat → PlayerState → List Action → Option (List Action)
  | 0, _, _ => none
  | fuel + 1, curr, path =>
    if curr = initial then some path
    else
      match alist_get pred_action curr, alist_get predecessor curr with
      | some action, some last => reconstruct pred_action predecessor initial fuel last (path ++ [action])
      | _, _ => none

/-- The `while let Some(current) = queue.pop_front()` loop of `Bot::bfs`.
The wall-clock deadline check at the top of each iteration is modelled by
the fuel counter: fuel `0` at a dequeued node is `elapsed > MAX_DURATION`.
On deadline with no best node the source panics (`expect`): `none`.
An emptied frontier returns the empty path. -/
def bfs_loop (turn : Nat) (initial : PlayerState) :
    Nat → List PlayerState → List PlayerState →
    List (PlayerState × PlayerState) → List (PlayerState × Action) →
    Option (PlayerState × Int) → GameState → Option (List Action)
  | _, [], _, _, _, _, _ => some []
  | 0, _ :: _, _, predecessor, pred_action, best, _ =>
    match best with
    | none => none
    | some (b, _) => reconstruct pred_action predecessor initial (pred_action.length + 1) b []
  | fuel + 1, current :: rest_queue, visited, predecessor, pred_action, best, gs =>
    let score := current.evaluate
    let best' :=
      match best with
      | none => some (current, score)
      | some (b, bs) => if bs < score then some (current, score) else some (b, bs)
    match current.get_possible_actions gs turn with
    | none => none
    | some actions =>
      match expand current actions rest_queue visited predecessor pred_action gs with
      | none => none
      | some (q', v', p', pa', gs') => bfs_loop turn initial fuel q' v' p' pa' best' gs'

/-- Rust `Bot::bfs`: seed the frontier, visited set and the synthetic `Wait`
predecessor action with the current `PlayerState`, then run the loop. -/
def Bot.bfs (fuel : Nat) (gs : GameState) (turn : Nat) : Option (List Action) :=
  let state := gs.me
  bfs_loop turn state fuel [state] [state] [] [(state, Action.Wait)] none gs

/-- Rust `Bot::think`: fast-path brew of the first fulfillable order; otherwise
run the BFS, reverse the returned path, and return its first action, or
`Wait` when the path is empty. `none` models a panic inside the BFS. -/
def Bot.think (fuel : Nat) (gs : GameState) (turn : Nat) : Option Action :=
  match gs.find_brewable_order with
  | some order => some (Action.Brew order.id)
  | none =>
    match Bot.bfs fuel gs turn with
    | none => none
    | some path =>
      match path.reverse.head? with
      | some action => some action
      | none => some Action.Wait

/-! ## Helper lemmas -/

/-- A successful `find?` splits the list at the first match. -/
theorem find?_decomp {α : Type} {p : α → Bool} :
    ∀ {l : List α} {a : α}, l.find? p = some a →
      ∃ l₁ l₂, l = l₁ ++ a :: l₂ ∧ ∀ b ∈ l₁, p b = false := by
  intro l
  induction l with
  | nil => intro a h; cases h
  | cons b l ih =>
    intro a h
    cases hb : p b with
    | true =>
      rw [List.find?_cons_of_pos _ hb] at h
      cases h
      exact ⟨[], l, rfl, by simp⟩
    | false =>
      rw [List.find?_cons_of_neg _ (by simp [hb])] at h
      obtain ⟨l₁, l₂, rfl, hl₁⟩ := ih h
      exact ⟨b :: l₁, l₂, rfl, by
        intro c hc
        rcases List.mem_cons.mp hc with rfl | hc
        · exact hb
        · exact hl₁ c hc⟩

/-- On a list whose images under `f` are pairwise distinct, `find?` by the
image of a member returns exactly that member. -/
theorem find?_first_id {α : Type} (f : α → Nat) :
    ∀ {l : List α} {a : α}, l.Pairwise (fun u v => f u ≠ f v) → a ∈ l →
      l.find? (fun u => f u == f a) = some a := by
  intro l
  induction l with
  | nil => intro a _ ha; cases ha
  | cons b l ih =>
    intro a hp ha
    obtain ⟨hb, hp'⟩ := List.pairwise_cons.mp hp
    rcases List.mem_cons.mp ha with rfl | ha
    · exact List.find?_cons_of_pos _ (by simp)
    · have hne : f b ≠ f a := hb a ha
      rw [List.find?_cons_of_neg _ (by simp [hne])]
      exact ih hp' ha

/-- Two members of a list with pairwise-distinct `f`-images sharing an
`f`-image are equal. -/
theorem eq_of_pairwise_id {α : Type} (f : α → Nat) {l : List α} {a b : α}
    (hp : l.Pairwise (fun u v => f u ≠ f v)) (ha : a ∈ l) (hb : b ∈ l)
    (hf : f a = f b) : a = b := by
  by_contra hne
  have hsymm : Symmetric (fun u v : α => f u ≠ f v) := by
    intro u v huv he
    exact huv he.symm
  exact List.Pairwise.forall hsymm hp ha hb hne hf

/-- Applying `Learn` never touches the `PlayerState` and never panics. -/
theorem learn_apply_frame (s : PlayerState) (gs : GameState) (i : Nat) :
    ∃ gs', s.apply gs (Action.Learn i) = some (s, gs') := by
  cases h : gs.tome.spells.find? (fun t => t.id == i) with
  | none => exact ⟨gs, by simp [PlayerState.apply, h]⟩
  | some spell =>
    cases hc : (s.inventory - Vec4.new (spell.tome_index : Int) 0 0 0).is_non_neg with
    | true =>
      exact ⟨{ gs with
        my_spells := gs.my_spells ++ [Spell.new (spell.id + 1000) spell.delta],
        tome := gs.tome.remove_spell spell }, by simp [PlayerState.apply, h, hc]⟩
    | false => exact ⟨gs, by simp [PlayerState.apply, h, hc]⟩

/-- Members of the brew part of the action list come from a fulfillable
open order. -/
theorem brews_mem_inv (inv : Vec4) (orders : List Order) (a : Action)
    (h : a ∈ orders.filterMap
      (fun o => if o.can_be_fulfilled_by inv then some (Action.Brew o.id) else none)) :
    ∃ o, o ∈ orders ∧ o.can_be_fulfilled_by inv = true ∧ a = Action.Brew o.id := by
  obtain ⟨o, ho, heq⟩ := List.mem_filterMap.mp h
  cases hc : o.can_be_fulfilled_by inv with
  | true =>
    rw [hc] at heq  -- hmm
    exact ⟨o, ho, hc, by simpa using heq.symm⟩
  | false =>
    rw [hc] at heq
    simp at heq

/-- Every member of the learn part of the action list is a `Learn`. -/
theorem learn_actions_shape (invx : Int) :
    ∀ (ts : List TomeSpell) (k : Nat) (a : Action),
      a ∈ learn_actions invx k ts → ∃ i, a = Action.Learn i := by
  intro ts
  induction ts with
  | nil => intro k a h; cases h
  | cons t ts ih =>
    intro k a h
    rw [learn_actions] at h
    rcases List.mem_append.mp h with h1 | h2
    · by_cases hk : (k : Int) ≤ invx
      · rw [if_pos hk] at h1
        exact ⟨t.id, by simpa using h1⟩
      · rw [if_neg hk] at h1
        cases h1
    · exact ih (k + 1) a h2

/-- Membership of `Learn i` in the learn part: there is a tome entry with
id `i` at offset `j` from the start of the remaining list, affordable at
absolute index `k + j`. -/
theorem learn_actions_mem (invx : Int) :
    ∀ (ts : List TomeSpell) (k i : Nat),
      (Action.Learn i ∈ learn_actions invx k ts ↔
        ∃ j, ∃ hj : j < ts.length, (ts.get ⟨j, hj⟩).id = i ∧ ((k + j : Nat) : Int) ≤ invx) := by
  intro ts
  induction ts with
  | nil => intro k i; simp [learn_actions]
  | cons t ts ih =>
    intro k i
    rw [learn_actions]
    constructor
    · intro h
      rcases List.mem_append.mp h with h1 | h2
      · by_cases hk : (k : Int) ≤ invx
        · rw [if_pos hk] at h1
          have hti : t.id = i := by
            have : Action.Learn i = Action.Learn t.id := by simpa using h1
            cases this
            rfl
          exact ⟨0, by simp, by simpa using hti, by simpa using hk⟩
        · rw [if_neg hk] at h1
          cases h1
      · obtain ⟨j, hj, hid, hle⟩ := (ih (k + 1) i).mp h2
        refine ⟨j + 1, by simpa using Nat.succ_lt_succ hj, by simpa using hid, ?_⟩
        have harith : k + 1 + j = k + (j + 1) := by omega
        rwa [harith] at hle
    · rintro ⟨j, hj, hid, hle⟩
      cases j with
      | zero =>
        apply List.mem_append_left
        have hk : (k : Int) ≤ invx := by simpa using hle
        rw [if_pos hk]
        simp only [List.get] at hid
        simp [hid]
      | succ j =>
        apply List.mem_append_right
        apply (ih (k + 1) i).mpr
        refine ⟨j, Nat.lt_of_succ_lt_succ hj, by simpa using hid, ?_⟩
        have harith : k + 1 + j = k + (j + 1) := by omega
        rwa [harith]

/-- Inversion for the cast part of the action list: each member is a
`Cast` of an available id whose roster spell is affordable. -/
theorem cast_actions_mem_inv (s : PlayerState) (spells : List Spell) :
    ∀ (av : List Nat) (casts : List Action) (a : Action),
      cast_actions s spells av = some casts → a ∈ casts →
      ∃ i spell, a = Action.Cast i ∧ i ∈ av ∧
        spells.find? (fun sp => sp.id == i) = some spell ∧
        s.can_afford_spell spell.delta = true := by
  intro av
  induction av with
  | nil =>
    intro casts a h ha
    rw [cast_actions] at h
    cases h
    cases ha
  | cons id rest ih =>
    intro casts a h ha
    rw [cast_actions] at h
    cases hf : spells.find? (fun sp => sp.id == id) with
    | none => rw [hf] at h; cases h
    | some spell =>
      rw [hf] at h
      cases hr : cast_actions s spells rest with
      | none => rw [hr] at h; cases h
      | some acts =>
        rw [hr] at h
        cases h
        rcases List.mem_append.mp ha with h1 | h2
        · cases haff : s.can_afford_spell spell.delta with
          | true =>
            rw [haff] at h1
            have haeq : a = Action.Cast id := by simpa using h1
            exact ⟨id, spell, haeq, by simp, hf, haff⟩
          | false =>
            rw [haff] at h1
            cases h1
        · obtain ⟨i, sp2, haeq, hi, hf2, haff2⟩ := ih acts a hr h2
          exact ⟨i, sp2, haeq, List.mem_cons_of_mem _ hi, hf2, haff2⟩

/-- The cast loop never panics when every available id names a roster
spell. -/
theorem cast_actions_total (s : PlayerState) (spells : List Spell) :
    ∀ (av : List Nat), (∀ i ∈ av, ∃ sp, sp ∈ spells ∧ sp.id = i) →
      ∃ casts, cast_actions s spells av = some casts := by
  intro av
  induction av with
  | nil => intro _; exact ⟨[], rfl⟩
  | cons id rest ih =>
    intro h
    obtain ⟨sp, hsp, hid⟩ := h id (by simp)
    have hsome : (spells.find? (fun u => u.id == id)).isSome :=
      List.find?_isSome.mpr ⟨sp, hsp, by simp [hid]⟩
    obtain ⟨spell, hf⟩ := Option.isSome_iff_exists.mp hsome
    obtain ⟨casts, hr⟩ := ih (fun i hi => h i (List.mem_cons_of_mem _ hi))
    exact ⟨(if s.can_afford_spell spell.delta then [Action.Cast id] else []) ++ casts,
      by rw [cast_actions, hf, hr]⟩

/-- Lists of nodup elements related by inclusion: the lengths differ
exactly when some element of the larger list is missing from the smaller. -/
theorem length_ne_iff_missing (l₁ l₂ : List Nat) (hsub : l₁ ⊆ l₂)
    (h1 : l₁.Nodup) (h2 : l₂.Nodup) :
    (l₁.length ≠ l₂.length ↔ ∃ i, i ∈ l₂ ∧ i ∉ l₁) := by
  constructor
  · intro hne
    by_contra hc
    push_neg at hc
    have hsub2 : l₂ ⊆ l₁ := fun a ha => hc a ha
    have hle1 := (List.subperm_of_subset h1 hsub).length_le
    have hle2 := (List.subperm_of_subset h2 hsub2).length_le
    omega
  · rintro ⟨i, hi, hni⟩ heq
    have hperm := (List.subperm_of_subset h1 hsub).perm_of_length_le (le_of_eq heq.symm)
    exact hni (hperm.mem_iff.mpr hi)

/-! ## Concrete states used by witnesses and counterexamples -/

/-- An empty player: zero score, zero inventory, no available spells. -/
def empty_player : PlayerState := ⟨0, Vec4.new 0 0 0 0, 0, []⟩

/-- A game with an empty roster and a single zero-position tome entry. -/
def game_learn_only : GameState :=
  ⟨empty_player, [], empty_player, [], [], ⟨[⟨7, Vec4.new 1 0 0 0, 0⟩]⟩⟩

/-- A game with an empty roster, no orders and no tome entries. -/
def game_empty : GameState := ⟨empty_player, [], empty_player, [], [], ⟨[]⟩⟩

/-- A game whose roster holds one spell (id 1) that is not available. -/
def game_one_spell : GameState :=
  ⟨empty_player, [Spell.new 1 (Vec4.new 1 0 0 0)], empty_player, [], [], ⟨[]⟩⟩

/-- A game with a single free order (id 3, price 5, zero delta). -/
def game_free_order : GameState :=
  ⟨empty_player, [], empty_player, [], [⟨3, 5, Vec4.new 0 0 0 0⟩], ⟨[]⟩⟩

/-- A game whose only tome entry (id 7) records tome position 3 while
sitting at list index 0. -/
def game_shifted_tome : GameState :=
  ⟨empty_player, [], empty_player, [], [], ⟨[⟨7, Vec4.new 1 0 0 0, 3⟩]⟩⟩

/-! ## Claims -/

/-- C1, counterexample: casting id 0, which is absent from the available
set, does NOT abort when id 0 also names no roster spell — the `if let`
falls through and `apply` completes as a silent no-op, contradicting
"aborts the process ... regardless of whether id names a spell in the
player's roster". -/
theorem C1_counterexample :
    (0 ∉ empty_player.available_spells) ∧
      empty_player.apply game_empty (Action.Cast 0) = some (empty_player, game_empty) := by
  decide

/-- C1, amended: applying `Cast id` with `id` absent from the available
set aborts the process (returns `none`, the model of `panic!`) provided
`id` names a spell in the player's roster; with no such roster spell the
action is a silent no-op. -/
theorem C1_cast_unavailable_aborts (s : PlayerState) (gs : GameState) (i : Nat)
    (spell : Spell) (hmem : spell ∈ gs.my_spells) (hid : spell.id = i)
    (hav : i ∉ s.available_spells) :
    s.apply gs (Action.Cast i) = none := by
  have hsome : (gs.my_spells.find? (fun sp => sp.id == i)).isSome :=
    List.find?_isSome.mpr ⟨spell, hmem, by simp [hid]⟩
  obtain ⟨sp', hsp'⟩ := Option.isSome_iff_exists.mp hsome
  simp [PlayerState.apply, hsp', hav]

/-- C1, witness: the amended theorem applied to a roster holding spell 1
while the available set is empty. -/
theorem C1_witness :
    (Spell.new 1 (Vec4.new 1 0 0 0) ∈ game_one_spell.my_spells ∧
      (Spell.new 1 (Vec4.new 1 0 0 0)).id = 1 ∧
      1 ∉ empty_player.available_spells) ∧
    empty_player.apply game_one_spell (Action.Cast 1) = none :=
  ⟨by decide,
   C1_cast_unavailable_aborts empty_player game_one_spell 1
     (Spell.new 1 (Vec4.new 1 0 0 0)) (by decide) (by decide) (by decide)⟩

/-- C6: applying `Learn id` leaves the player's score, inventory, brew
count and available-spell set unchanged — the learning tax is checked
against the inventory but never deducted, even on a successful learn. -/
theorem C6_learn_frame (s : PlayerState) (gs : GameState) (i : Nat) :
    ∃ s' gs', s.apply gs (Action.Learn i) = some (s', gs') ∧
      s'.inventory = s.inventory ∧ s'.score = s.score ∧
      s'.brew_count = s.brew_count ∧ s'.available_spells = s.available_spells := by
  obtain ⟨gs', h⟩ := learn_apply_frame s gs i
  exact ⟨s, gs', h, rfl, rfl, rfl, rfl⟩

/-- C8: applying `Rest` sets the available-spell set to exactly the ids of
the full current spell roster, whatever it contained before. -/
theorem C8_rest_restores (s : PlayerState) (gs : GameState) :
    s.apply gs Action.Rest =
      some ({ s with available_spells := gs.my_spells.map Spell.id }, gs) := rfl

/-- C10: when the seed state has a fulfillable order, `think` immediately
returns `Brew` of the first fulfillable order in the live order list, for
every fuel budget — the BFS planner is never consulted. -/
theorem C10_fast_path_brew (fuel turn : Nat) (gs : GameState) (o : Order)
    (h : gs.find_brewable_order = some o) :
    Bot.think fuel gs turn = some (Action.Brew o.id) ∧
    o.can_be_fulfilled_by gs.me.inventory = true ∧
    ∃ l₁ l₂, gs.orders = l₁ ++ o :: l₂ ∧
      ∀ o' ∈ l₁, o'.can_be_fulfilled_by gs.me.inventory = false := by
  have h' : gs.orders.find? (fun o2 => o2.can_be_fulfilled_by gs.me.inventory) = some o := h
  refine ⟨by simp [Bot.think, h], ?_, find?_decomp h'⟩
  have hful := List.find?_some h'
  simpa using hful

/-- C4: for an open order fulfillable by the current inventory (and with
the id-uniqueness well-formedness of the live order list), `Brew(order.id)`
adds the order's delta to the inventory, its price to the score, increments
the brew count, and removes exactly that order from the live list; and an
order is fulfillable by an inventory iff inventory plus its delta is
non-negative. -/
theorem C4_brew_effects (s : PlayerState) (gs : GameState) (order : Order)
    (hmem : order ∈ gs.orders)
    (hful : order.can_be_fulfilled_by s.inventory = true)
    (hids : (gs.orders.map Order.id).Nodup) :
    (∃ l₁ l₂, gs.orders = l₁ ++ order :: l₂ ∧
      s.apply gs (Action.Brew order.id) =
        some ({ s with inventory := s.inventory + order.delta,
                       score := s.score + order.price,
                       brew_count := s.brew_count + 1 },
              { gs with orders := l₁ ++ l₂ })) ∧
    ∀ (o : Order) (inv : Vec4), o.can_be_fulfilled_by inv = (inv + o.delta).is_non_neg := by
  have hp : gs.orders.Pairwise (fun u v => u.id ≠ v.id) := List.pairwise_map.mp hids
  have hpord : (fun o => o.id == order.id && o.can_be_fulfilled_by s.inventory) order = true := by
    simp [hful]
  have hfind : gs.orders.find? (fun o => o.id == order.id && o.can_be_fulfilled_by s.inventory)
      = some order := by
    have hsome : (gs.orders.find?
        (fun o => o.id == order.id && o.can_be_fulfilled_by s.inventory)).isSome :=
      List.find?_isSome.mpr ⟨order, hmem, hpord⟩
    obtain ⟨x, hx⟩ := Option.isSome_iff_exists.mp hsome
    have px := List.find?_some hx
    simp only [Bool.and_eq_true, beq_iff_eq] at px
    have hxmem := List.mem_of_find?_eq_some hx
    rw [hx, eq_of_pairwise_id Order.id hp hxmem hmem px.1]
  obtain ⟨x, l₁, l₂, hl₁, hpx, heq, herase⟩ :=
    @List.exists_of_eraseP Order
      (fun o => o.id == order.id && o.can_be_fulfilled_by s.inventory)
      gs.orders order hmem hpord
  have hxmem : x ∈ gs.orders := by rw [heq]; simp
  simp only [Bool.and_eq_true, beq_iff_eq] at hpx
  have hxo : x = order := eq_of_pairwise_id Order.id hp hxmem hmem hpx.1
  subst hxo
  refine ⟨⟨l₁, l₂, heq, ?_⟩, fun o inv => rfl⟩
  simp [PlayerState.apply, hfind, herase]

/-- C4, witness: brewing the single free order of `game_free_order`. -/
theorem C4_witness :
    ((⟨3, 5, Vec4.new 0 0 0 0⟩ : Order) ∈ game_free_order.orders ∧
      Order.can_be_fulfilled_by ⟨3, 5, Vec4.new 0 0 0 0⟩ empty_player.inventory = true ∧
      (game_free_order.orders.map Order.id).Nodup) ∧
    (∃ l₁ l₂, game_free_order.orders = l₁ ++ (⟨3, 5, Vec4.new 0 0 0 0⟩ : Order) :: l₂ ∧
      empty_player.apply game_free_order (Action.Brew 3) =
        some ({ empty_player with
                  inventory := empty_player.inventory + Vec4.new 0 0 0 0,
                  score := empty_player.score + 5,
                  brew_count := empty_player.brew_count + 1 },
              { game_free_order with orders := l₁ ++ l₂ })) :=
  ⟨by refine ⟨by decide, by decide, by decide⟩,
   (C4_brew_effects empty_player game_free_order ⟨3, 5, Vec4.new 0 0 0 0⟩
     (by decide) (by decide) (by decide)).1⟩

/-- C5: for a tome entry (under id-uniqueness of the tome), applying
`Learn(entry.id)` when the inventory minus the (tome position, 0, 0, 0)
tax is non-negative appends `Spell::new(entry.id + 1000, entry.delta)` to
the roster and removes exactly that entry from the tome; when the
difference has a negative component the action changes nothing at all. -/
theorem C5_learn_effects (s : PlayerState) (gs : GameState) (entry : TomeSpell)
    (hmem : entry ∈ gs.tome.spells)
    (hids : (gs.tome.spells.map TomeSpell.id).Nodup) :
    ((s.inventory - Vec4.new (entry.tome_index : Int) 0 0 0).is_non_neg = true →
      ∃ l₁ l₂, gs.tome.spells = l₁ ++ entry :: l₂ ∧
        s.apply gs (Action.Learn entry.id) =
          some (s, { gs with
            my_spells := gs.my_spells ++ [Spell.new (entry.id + 1000) entry.delta],
            tome := ⟨l₁ ++ l₂⟩ })) ∧
    ((s.inventory - Vec4.new (entry.tome_index : Int) 0 0 0).is_non_neg = false →
      s.apply gs (Action.Learn entry.id) = some (s, gs)) := by
  have hp : gs.tome.spells.Pairwise (fun u v => u.id ≠ v.id) := List.pairwise_map.mp hids
  have hfind : gs.tome.spells.find? (fun t => t.id == entry.id) = some entry :=
    find?_first_id TomeSpell.id hp hmem
  constructor
  · intro hc
    have hpe : (fun u : TomeSpell => u.id == entry.id) entry = true := by simp
    obtain ⟨x, l₁, l₂, hl₁, hpx, heq, herase⟩ :=
      @List.exists_of_eraseP TomeSpell (fun u => u.id == entry.id)
        gs.tome.spells entry hmem hpe
    have hxmem : x ∈ gs.tome.spells := by rw [heq]; simp
    simp only [beq_iff_eq] at hpx
    have hxo : x = entry := eq_of_pairwise_id TomeSpell.id hp hxmem hmem hpx
    subst hxo
    refine ⟨l₁, l₂, heq, ?_⟩
    simp [PlayerState.apply, hfind, hc, MagicTome.remove_spell, herase]
  · intro hc
    simp [PlayerState.apply, hfind, hc]

/-- C5, witness: learning the single zero-tax tome entry of
`game_learn_only` from an empty inventory. -/
theorem C5_witness :
    ((⟨7, Vec4.new 1 0 0 0, 0⟩ : TomeSpell) ∈ game_learn_only.tome.spells ∧
      (game_learn_only.tome.spells.map TomeSpell.id).Nodup ∧
      (empty_player.inventory - Vec4.new 0 0 0 0).is_non_neg = true) ∧
    (∃ l₁ l₂, game_learn_only.tome.spells =
        l₁ ++ (⟨7, Vec4.new 1 0 0 0, 0⟩ : TomeSpell) :: l₂ ∧
      empty_player.apply game_learn_only (Action.Learn 7) =
        some (empty_player, { game_learn_only with
          my_spells := game_learn_only.my_spells ++ [Spell.new 1007 (Vec4.new 1 0 0 0)],
          tome := ⟨l₁ ++ l₂⟩ })) :=
  ⟨by refine ⟨by decide, by decide, by decide⟩,
   (C5_learn_effects empty_player game_learn_only ⟨7, Vec4.new 1 0 0 0, 0⟩
     (by decide) (by decide)).1 (by decide)⟩

/-- C7, counterexample: with a single tome entry of id 7 recording tome
position 3 while sitting at list index 0, turn 0 and a zero inventory,
`get_possible_actions` DOES return `Learn 7` although the tier-0 inventory
(0) is below the entry's tome position (3) — the code gates on the list
index, not the recorded tome position. -/
theorem C7_counterexample :
    empty_player.get_possible_actions game_shifted_tome 0 = some [Action.Learn 7] ∧
    ∀ t ∈ game_shifted_tome.tome.spells,
      t.id = 7 → ¬((t.tome_index : Int) ≤ empty_player.inventory.x) := by
  constructor
  · decide
  · decide

/-- C7, amended: `get_possible_actions` returns `Learn i` for a tome entry
exactly when the turn is below five and the tier-0 inventory is at least
the entry's current zero-based index in the tome list (which coincides
with its recorded tome position only while no earlier entry has been
removed); for turns five and later no `Learn` is returned. -/
theorem C7_learn_gating (s : PlayerState) (gs : GameState) (turn : Nat)
    (acts : List Action) (i : Nat)
    (hacts : s.get_possible_actions gs turn = some acts) :
    (Action.Learn i ∈ acts ↔
      turn < 5 ∧ ∃ idx, ∃ hidx : idx < gs.tome.spells.length,
        (gs.tome.spells.get ⟨idx, hidx⟩).id = i ∧ (idx : Int) ≤ s.inventory.x) := by
  cases hca : cast_actions s gs.my_spells s.available_spells with
  | none =>
    simp only [PlayerState.get_possible_actions, hca] at hacts
    cases hacts
  | some casts =>
    simp only [PlayerState.get_possible_actions, hca, Option.some.injEq] at hacts
    subst hacts
    constructor
    · intro h
      simp only [List.mem_append] at h
      rcases h with ((h1 | h2) | h3) | h4
      · obtain ⟨o, -, -, haeq⟩ := brews_mem_inv s.inventory gs.orders _ h1
        cases haeq
      · by_cases ht : turn < 5
        · rw [if_pos ht] at h2
          obtain ⟨j, hj, hid, hle⟩ := (learn_actions_mem s.inventory.x gs.tome.spells 0 i).mp h2
          exact ⟨ht, j, hj, hid, by simpa using hle⟩
        · rw [if_neg ht] at h2
          cases h2
      · obtain ⟨i2, spell, haeq, -, -, -⟩ := cast_actions_mem_inv s gs.my_spells _ _ _ hca h3
        cases haeq
      · by_cases hlen : s.available_spells.length ≠ gs.my_spells.length
        · rw [if_pos hlen] at h4
          simp at h4
        · rw [if_neg hlen] at h4
          cases h4
    · rintro ⟨ht, j, hj, hid, hle⟩
      simp only [List.mem_append]
      refine Or.inl (Or.inl (Or.inr ?_))
      rw [if_pos ht]
      exact (learn_actions_mem s.inventory.x gs.tome.spells 0 i).mpr
        ⟨j, hj, hid, by simpa using hle⟩

/-- C7, witness: the amended gating evaluated on the shifted tome at
turn 0 — `Learn 7` is offered, and index 0 is affordable. -/
theorem C7_witness :
    (empty_player.get_possible_actions game_shifted_tome 0 = some [Action.Learn 7]) ∧
    (Action.Learn 7 ∈ [Action.Learn 7] ↔
      0 < 5 ∧ ∃ idx, ∃ hidx : idx < game_shifted_tome.tome.spells.length,
        (game_shifted_tome.tome.spells.get ⟨idx, hidx⟩).id = 7 ∧
        (idx : Int) ≤ empty_player.inventory.x) :=
  ⟨by decide,
   C7_learn_gating empty_player game_shifted_tome 0 [Action.Learn 7] 7 (by decide)⟩

/-- C9: under the maintained invariants (available ids drawn from the
roster, no duplicates on either side), the action list contains `Rest`
exactly when the available-spell set is a strict subset of the roster's
id set. -/
theorem C9_rest_iff_strict_subset (s : PlayerState) (gs : GameState) (turn : Nat)
    (hsub : ∀ i ∈ s.available_spells, i ∈ gs.my_spells.map Spell.id)
    (hnd1 : s.available_spells.Nodup)
    (hnd2 : (gs.my_spells.map Spell.id).Nodup) :
    ∃ acts, s.get_possible_actions gs turn = some acts ∧
      (Action.Rest ∈ acts ↔
        (∀ i ∈ s.available_spells, i ∈ gs.my_spells.map Spell.id) ∧
        ∃ i, i ∈ gs.my_spells.map Spell.id ∧ i ∉ s.available_spells) := by
  have htot : ∀ i ∈ s.available_spells, ∃ sp, sp ∈ gs.my_spells ∧ sp.id = i := by
    intro i hi
    obtain ⟨sp, hsp, hid⟩ := List.mem_map.mp (hsub i hi)
    exact ⟨sp, hsp, hid⟩
  obtain ⟨casts, hca⟩ := cast_actions_total s gs.my_spells s.available_spells htot
  have hlen_iff : (s.available_spells.length ≠ gs.my_spells.length ↔
      ∃ i, i ∈ gs.my_spells.map Spell.id ∧ i ∉ s.available_spells) := by
    have := length_ne_iff_missing s.available_spells (gs.my_spells.map Spell.id)
      (fun i hi => hsub i hi) hnd1 hnd2
    rwa [List.length_map] at this
  refine ⟨(gs.orders.filterMap fun o =>
            if o.can_be_fulfilled_by s.inventory then some (Action.Brew o.id) else none) ++
          (if turn < 5 then learn_actions s.inventory.x 0 gs.tome.spells else []) ++
          casts ++
          (if s.available_spells.length ≠ gs.my_spells.length then [Action.Rest] else []),
        by simp only [PlayerState.get_possible_actions, hca], ?_⟩
  constructor
  · intro h
    simp only [List.mem_append] at h
    rcases h with ((h1 | h2) | h3) | h4
    · obtain ⟨o, -, -, haeq⟩ := brews_mem_inv s.inventory gs.orders _ h1
      cases haeq
    · have h2' : Action.Rest ∈ (if turn < 5 then learn_actions s.inventory.x 0 gs.tome.spells else []) := h2
      by_cases ht : turn < 5
      · rw [if_pos ht] at h2'
        obtain ⟨j, haeq⟩ := learn_actions_shape s.inventory.x gs.tome.spells 0 _ h2'
        cases haeq
      · rw [if_neg ht] at h2'
        cases h2'
    · obtain ⟨i2, spell, haeq, -, -, -⟩ := cast_actions_mem_inv s gs.my_spells _ _ _ hca h3
      cases haeq
    · by_cases hlen : s.available_spells.length ≠ gs.my_spells.length
      · exact ⟨hsub, hlen_iff.mp hlen⟩
      · rw [if_neg hlen] at h4
        cases h4
  · rintro ⟨-, hmissing⟩
    have hlen : s.available_spells.length ≠ gs.my_spells.length := hlen_iff.mpr hmissing
    simp only [List.mem_append]
    refine Or.inr ?_
    rw [if_pos hlen]
    simp

/-- C9, witness: the invariants and the equivalence at a state with an
empty available set and a one-spell roster. -/
theorem C9_witness :
    ((∀ i ∈ empty_player.available_spells, i ∈ game_one_spell.my_spells.map Spell.id) ∧
      empty_player.available_spells.Nodup ∧
      (game_one_spell.my_spells.map Spell.id).Nodup) ∧
    (∃ acts, empty_player.get_possible_actions game_one_spell 0 = some acts ∧
      (Action.Rest ∈ acts ↔
        (∀ i ∈ empty_player.available_spells, i ∈ game_one_spell.my_spells.map Spell.id) ∧
        ∃ i, i ∈ game_one_spell.my_spells.map Spell.id ∧ i ∉ empty_player.available_spells)) :=
  ⟨⟨by decide, by decide, by decide⟩,
   C9_rest_iff_strict_subset empty_player game_one_spell 0
     (by decide) (by decide) (by decide)⟩

/-- C2: starting from a component-wise non-negative inventory, every
action returned by `get_possible_actions` applies without panicking and
yields a state whose inventory is still component-wise non-negative. -/
theorem C2_actions_preserve_nonneg (s : PlayerState) (gs : GameState) (turn : Nat)
    (acts : List Action) (a : Action)
    (hinv : s.inventory.is_non_neg = true)
    (hacts : s.get_possible_actions gs turn = some acts)
    (ha : a ∈ acts) :
    ∃ s' gs', s.apply gs a = some (s', gs') ∧ s'.inventory.is_non_neg = true := by
  cases hca : cast_actions s gs.my_spells s.available_spells with
  | none =>
    simp only [PlayerState.get_possible_actions, hca] at hacts
    cases hacts
  | some casts =>
    simp only [PlayerState.get_possible_actions, hca, Option.some.injEq] at hacts
    subst hacts
    simp only [List.mem_append] at ha
    rcases ha with ((h1 | h2) | h3) | h4
    · -- a brew of a fulfillable order
      obtain ⟨o, ho, hful, haeq⟩ := brews_mem_inv s.inventory gs.orders _ h1
      subst haeq
      have hpord : (fun o2 => o2.id == o.id && o2.can_be_fulfilled_by s.inventory) o = true := by
        simp [hful]
      have hsome : (gs.orders.find?
          (fun o2 => o2.id == o.id && o2.can_be_fulfilled_by s.inventory)).isSome :=
        List.find?_isSome.mpr ⟨o, ho, hpord⟩
      obtain ⟨x, hx⟩ := Option.isSome_iff_exists.mp hsome
      have px := List.find?_some hx
      simp only [Bool.and_eq_true, beq_iff_eq] at px
      refine ⟨{ s with inventory := s.inventory + x.delta,
                       score := s.score + x.price,
                       brew_count := s.brew_count + 1 },
              { gs with orders :=
                gs.orders.eraseP (fun o2 => o2.id == o.id && o2.can_be_fulfilled_by s.inventory) },
              by simp [PlayerState.apply, hx], ?_⟩
      simpa [Order.can_be_fulfilled_by] using px.2
    · -- a learn: the player state is untouched
      by_cases ht : turn < 5
      · rw [if_pos ht] at h2
        obtain ⟨i, haeq⟩ := learn_actions_shape s.inventory.x gs.tome.spells 0 a h2
        subst haeq
        obtain ⟨gs', hap⟩ := learn_apply_frame s gs i
        exact ⟨s, gs', hap, hinv⟩
      · rw [if_neg ht] at h2
        cases h2
    · -- a cast of an available, affordable roster spell
      obtain ⟨i, spell, haeq, hiav, hf, haff⟩ :=
        cast_actions_mem_inv s gs.my_spells _ _ a hca h3
      subst haeq
      refine ⟨{ s with inventory := s.inventory + spell.delta,
                       available_spells := s.available_spells.erase i }, gs,
              by simp [PlayerState.apply, hf, hiav], ?_⟩
      have hda : (spell.delta + s.inventory).is_non_neg = true := by
        simpa [PlayerState.can_afford_spell] using haff
      have hcomm : s.inventory + spell.delta = spell.delta + s.inventory :=
        Vec4.add_comm s.inventory spell.delta
      simpa [hcomm] using hda
    · -- a rest: the inventory is untouched
      by_cases hlen : s.available_spells.length ≠ gs.my_spells.length
      · rw [if_pos hlen] at h4
        have haeq : a = Action.Rest := by simpa using h4
        subst haeq
        exact ⟨{ s with available_spells := gs.my_spells.map Spell.id }, gs, rfl, hinv⟩
      · rw [if_neg hlen] at h4
        cases h4

/-- C2, witness: the brew action offered in `game_free_order` from the
zero inventory. -/
theorem C2_witness :
    (empty_player.inventory.is_non_neg = true ∧
      empty_player.get_possible_actions game_free_order 0 = some [Action.Brew 3] ∧
      Action.Brew 3 ∈ [Action.Brew 3]) ∧
    (∃ s' gs', empty_player.apply game_free_order (Action.Brew 3) = some (s', gs') ∧
      s'.inventory.is_non_neg = true) :=
  ⟨⟨by decide, by decide, by decide⟩,
   C2_actions_preserve_nonneg empty_player game_free_order 0 [Action.Brew 3] (Action.Brew 3)
     (by decide) (by decide) (by decide)⟩

/-- C3, code bug, evaluated at a failing input: in `game_learn_only`
(no orders, empty roster, one zero-position tome entry) at turn 0, the
BFS frontier empties (the only legal action, `Learn 7`, leaves the
`PlayerState` unchanged, so its successor is already visited) and the
path is empty; `think` then returns `Wait` even though the legal action
`Learn 7` exists at the seed — the claimed fallback to a currently legal
action is absent from the code (it is commented out, while the adjacent
log line still claims to take it). -/
theorem C3_fallback_returns_wait :
    Bot.think 10 game_learn_only 0 = some Action.Wait ∧
    empty_player.get_possible_actions game_learn_only 0 = some [Action.Learn 7] ∧
    game_learn_only.me = empty_player ∧
    Action.Wait ∉ [Action.Learn 7] := by
  refine ⟨by decide, by decide, by decide, by decide⟩

/-- C10, witness: the fast path applied to a game holding one free order. -/
theorem C10_witness :
    (game_free_order.find_brewable_order = some ⟨3, 5, Vec4.new 0 0 0 0⟩) ∧
    (Bot.think 5 game_free_order 0 = some (Action.Brew 3) ∧
      Order.can_be_fulfilled_by ⟨3, 5, Vec4.new 0 0 0 0⟩ game_free_order.me.inventory = true ∧
      ∃ l₁ l₂, game_free_order.orders = l₁ ++ ⟨3, 5, Vec4.new 0 0 0 0⟩ :: l₂ ∧
        ∀ o' ∈ l₁, o'.can_be_fulfilled_by game_free_order.me.inventory = false) :=
  ⟨by decide, C10_fast_path_brew 5 0 game_free_order ⟨3, 5, Vec4.new 0 0 0 0⟩ (by decide)⟩

end Potion
